/-
Verification of the vote-counter repository against its specification.

The repository processes photographed ballot papers: it rectifies the image,
segments it into candidate rows, locates marks (a cross or the digits 1/2/3),
associates each candidate-name region with a nearby mark, and decides ballot
validity.  The Lean definitions below are shallow embeddings of the Python
source files:

  - vote_validation.py      (VoteValidator.is_valid)
  - yolo_vote_extraction.py (VoteProcessor: _extract_vote_symbols,
                             find_names_and_votes, _check_for_vote)
  - cv_vote_extraction.py   (ImageProcessor.identify_symbol,
                             detect_horizontal_lines, divide_image_by_lines,
                             warp_perspective)
  - layout_processing.py    (VoteExtractor.extract_vote,
                             VoteExtractor.extract_candidate_name,
                             VotingSystem.process_votes)

Machine floats and image buffers are modelled by rationals and by the integer
geometry the code actually inspects; Python exceptions are modelled by Except.
-/
import Mathlib

namespace VoteCounter

/-! ## Data model

An association record, as built by layout_processing.process_votes and
consumed by vote_validation.VoteValidator.is_valid: a dict
with keys sheet_position, candidate_name and vote (vote may be None). -/

structure Record where
  sheet_position : Nat
  candidate_name : String
  vote : Option String
  deriving DecidableEq

/-! ## vote_validation.py -/

/-- The list of valid cross characters, VALID_VOTE_CHARACTERS in
layout_processing.py. -/
def VALID_VOTE_CHARACTERS : List String := ["X", "x"]

/-- The list of valid number characters, VALID_VOTE_NUMBERS in
layout_processing.py. -/
def VALID_VOTE_NUMBERS : List String := ["1", "2", "3"]

/-- VALID_VOTES in layout_processing.py. -/
def VALID_VOTES : List String := VALID_VOTE_CHARACTERS ++ VALID_VOTE_NUMBERS

/-- The list comprehension in VoteValidator.is_valid:
votes with item['vote'] is not None. -/
def extractedVotes (votes : List Record) : List String :=
  votes.filterMap (·.vote)

/-- Python string comparison, strict: lexicographic on Unicode code points. -/
def strLtb : List Char → List Char → Bool
  | [], [] => false
  | [], _ :: _ => true
  | _ :: _, [] => false
  | a :: as, b :: bs =>
    if a.toNat < b.toNat then true
    else if b.toNat < a.toNat then false
    else strLtb as bs

/-- Python string comparison, non-strict. -/
def pyStrLe (a b : String) : Prop := strLtb b.data a.data = false

instance : DecidableRel pyStrLe :=
  fun a b => inferInstanceAs (Decidable (strLtb b.data a.data = false))

/-- Python sorted on lists of strings: a stable sort for the lexicographic
code-point order on strings. -/
def pySorted (l : List String) : List String :=
  List.insertionSort pyStrLe l

/-- The local variable x_count of VoteValidator.is_valid: the total number
of occurrences in the extracted votes of each valid cross character. -/
def xCount (chars ev : List String) : Nat :=
  (chars.map (fun c => ev.count c)).sum

/-- The body of VoteValidator.is_valid after extracted_votes is computed.
chars and nums are the valid_vote_characters / valid_vote_numbers fields
set by the constructor. -/
def isValidEv (chars nums : List String) (ev : List String) : Bool :=
  if ev = [] then false
  else if ev.any (fun v => !(chars ++ nums).contains v) then false
  else if 1 < xCount chars ev ∨ (xCount chars ev = 1 ∧ ev.length ≠ 1) then false
  else if xCount chars ev = 0 then
    if ev.all (fun v => nums.contains v) then
      if pySorted ev ≠ nums then false else true
    else false
  else true

/-- VoteValidator.is_valid. -/
def is_valid (chars nums : List String) (votes : List Record) : Bool :=
  isValidEv chars nums (extractedVotes votes)

/-! ## yolo_vote_extraction.py

A detection box, in xyxy pixel coordinates as returned by the detector.
The associator only reads the y coordinates (indices 1 and 3 of xyxy). -/

structure Box where
  x1 : Int
  y1 : Int
  x2 : Int
  y2 : Int
  deriving DecidableEq

/-- One detector result: a class label and its bounding box. -/
structure Detection where
  cls : String
  box : Box
  deriving DecidableEq

/-- POSITION_TOLERANCE in yolo_vote_extraction.py. -/
def POSITION_TOLERANCE : Int := 10

/-- CLASS_NAME_TO_IGNORE in yolo_vote_extraction.py. -/
def CLASS_NAME_TO_IGNORE : String := "name"

/-- VoteProcessor._check_for_vote: scan the vote-symbol dictionary in order;
the first of the four positional rules that fires wins.  name_pos[0][1] and
name_pos[0][3] are the candidate box's y1 and y2. -/
def checkForVote (name_pos : Box) (index : Nat) :
    List (String × Box) → Option (Nat × String × String)
  | [] => none
  | (symbol, symbol_pos) :: rest =>
    if name_pos.y1 ≥ symbol_pos.y1 ∧ name_pos.y1 ≤ symbol_pos.y2 then
      some (index, symbol, "1")
    else if name_pos.y1 ≤ symbol_pos.y1 ∧ name_pos.y2 ≥ symbol_pos.y2 then
      some (index, symbol, "2")
    else if |name_pos.y1 - symbol_pos.y2| < POSITION_TOLERANCE then
      some (index, symbol, "TOP")
    else if |symbol_pos.y1 - name_pos.y2| < POSITION_TOLERANCE then
      some (index, symbol, "BOTTOM")
    else checkForVote name_pos index rest

/-- Insertion into a Python dict modelled as an insertion-ordered
association list: an existing key keeps its position and gets the new
value, a new key goes to the back. -/
def dictInsert (k : String) (v : Box) : List (String × Box) → List (String × Box)
  | [] => [(k, v)]
  | (k', v') :: rest =>
    if k' = k then (k', v) :: rest else (k', v') :: dictInsert k v rest

/-- Lookup in the association-list model of a Python dict. -/
def dictLookup (k : String) : List (String × Box) → Option Box
  | [] => none
  | (k', v) :: rest => if k' = k then some v else dictLookup k rest

/-- One step of the dict comprehension in
VoteProcessor._extract_vote_symbols. -/
def symStep (d : List (String × Box)) (det : Detection) : List (String × Box) :=
  if det.cls ≠ CLASS_NAME_TO_IGNORE then dictInsert det.cls det.box d else d

/-- VoteProcessor._extract_vote_symbols: the dict comprehension keyed by
class name over all detections whose class is not 'name'. -/
def extractVoteSymbols (boxes : List Detection) : List (String × Box) :=
  boxes.foldl symStep []

/-- The enumerated loop body of VoteProcessor.find_names_and_votes:
for each 'name' detection, append the association when _check_for_vote
returned one (a non-empty tuple is truthy, None is falsy). -/
def findNamesAndVotesAux (symbols : List (String × Box)) :
    Nat → List Detection → List (Nat × String × String)
  | _, [] => []
  | i, d :: rest =>
    if d.cls = CLASS_NAME_TO_IGNORE then
      match checkForVote d.box i symbols with
      | some v => v :: findNamesAndVotesAux symbols (i + 1) rest
      | none => findNamesAndVotesAux symbols (i + 1) rest
    else findNamesAndVotesAux symbols (i + 1) rest

/-- VoteProcessor.find_names_and_votes. -/
def findNamesAndVotes (boxes : List Detection) : List (Nat × String × String) :=
  findNamesAndVotesAux (extractVoteSymbols boxes) 0 boxes

/-! ## cv_vote_extraction.py -/

/-- A cv2.boundingRect result: x, y, width, height. -/
structure Rect where
  x : Nat
  y : Nat
  w : Nat
  h : Nat
  deriving DecidableEq

/-- A detected horizontal line (x, y, x + w, y + h) as appended by
detect_horizontal_lines. -/
structure HLine where
  x1 : Nat
  y1 : Nat
  x2 : Nat
  y2 : Nat
  deriving DecidableEq

/-- MIN_LINE_WIDTH in cv_vote_extraction.py. -/
def MIN_LINE_WIDTH : Nat := 300

/-- detect_horizontal_lines, after the morphological opening and contour
extraction (external image operations): keep the bounding rectangles whose
width exceeds MIN_LINE_WIDTH, as (x, y, x + w, y + h) tuples. -/
def detect_horizontal_lines (rects : List Rect) : List HLine :=
  (rects.filter (fun r => MIN_LINE_WIDTH < r.w)).map
    (fun r => ⟨r.x, r.y, r.x + r.w, r.y + r.h⟩)

/-- The sort key of divide_image_by_lines: line[1], the y coordinate. -/
def hlineLe (a b : HLine) : Prop := a.y1 ≤ b.y1

instance : DecidableRel hlineLe :=
  fun a b => inferInstanceAs (Decidable (a.y1 ≤ b.y1))

instance : IsTotal HLine hlineLe := ⟨fun a b => Nat.le_total a.y1 b.y1⟩

instance : IsTrans HLine hlineLe := ⟨fun _ _ _ => Nat.le_trans⟩

/-- The slicing loop of divide_image_by_lines: consecutive boundary values
y1 = lines[i][1], y2 = lines[i+1][1] delimit sub-image image[y1:y2]. -/
def intervalsOf : List Nat → List (Nat × Nat)
  | b1 :: b2 :: rest => (b1, b2) :: intervalsOf (b2 :: rest)
  | _ => []

/-- divide_image_by_lines: sort the lines by y, add the two virtual
boundary lines (0, 0, width, 0) and (0, height, width, height), and slice
the image between consecutive boundaries.  Each returned pair (y1, y2)
stands for the row sub-image image[y1:y2, 0:width]. -/
def divide_image_by_lines (height width : Nat) (lines : List HLine) :
    List (Nat × Nat) :=
  let sortedLines := List.insertionSort hlineLe lines
  let allLines : List HLine :=
    ⟨0, 0, width, 0⟩ :: sortedLines ++ [⟨0, height, width, height⟩]
  intervalsOf (allLines.map (·.y1))

/-- One template-matching outcome inside ImageProcessor.identify_symbol:
the template's symbol name, its best normalized cross-correlation score
max_val and the best location max_loc (external cv2.matchTemplate and
cv2.minMaxLoc calls, scores modelled as rationals). -/
structure TMatch where
  symbol : String
  val : ℚ
  loc : Nat × Nat
  deriving DecidableEq

/-- THRESHOLD in cv_vote_extraction.py. -/
def THRESHOLD : ℚ := 0.6

/-- The downscaling step of identify_symbol: when the template is larger
than the image in either dimension, scale = min(imgH / tH, imgW / tW) and
new_size = (int(tW * scale), int(tH * scale)). -/
def scaledSize (imgH imgW tH tW : Nat) : Nat × Nat :=
  let scale : ℚ := min ((imgH : ℚ) / (tH : ℚ)) ((imgW : ℚ) / (tW : ℚ))
  (⌊(tW : ℚ) * scale⌋₊, ⌊(tH : ℚ) * scale⌋₊)

/-- The selection loop of identify_symbol: starting from best_val = -inf
(the none state, in which max_val > best_val always holds), a template
becomes the best match when max_val > best_val and max_val > threshold. -/
def identifyLoop (threshold : ℚ) :
    List TMatch → Option TMatch → Option TMatch
  | [], best => best
  | m :: rest, none =>
    identifyLoop threshold rest (if threshold < m.val then some m else none)
  | m :: rest, some b =>
    identifyLoop threshold rest
      (if b.val < m.val ∧ threshold < m.val then some m else some b)

/-- ImageProcessor.identify_symbol, given the per-template matching
outcomes in template-dictionary order: returns
(best_match, best_loc, best_val) when best_match is truthy (a non-empty
string), otherwise ("Unknown", None, None). -/
def identify_symbol (threshold : ℚ) (ms : List TMatch) :
    String × Option (Nat × Nat) × Option ℚ :=
  match identifyLoop threshold ms none with
  | some r => if r.symbol = "" then ("Unknown", none, none)
              else (r.symbol, some r.loc, some r.val)
  | none => ("Unknown", none, none)

/-- A contour as consumed by warp_perspective: its enclosed area
(cv2.contourArea) and its bounding rectangle (cv2.boundingRect). -/
structure Contour where
  area : ℚ
  rect : Rect
  deriving DecidableEq

/-- contours[np.argmax(contour_areas)]: the first contour of maximal area;
np.argmax raises ValueError on an empty sequence. -/
def maxAreaContour : List Contour → Option Contour
  | [] => none
  | c :: rest => some (rest.foldl (fun best x => if best.area < x.area then x else best) c)

/-- warp_perspective: on an empty contour set np.argmax raises, which we
model as an error result; otherwise the bounding rectangle of the
largest-area contour determines the perspective transform applied to both
the color and the binary image, so we return that rectangle. -/
def warp_perspective (contours : List Contour) : Except String Rect :=
  match maxAreaContour contours with
  | none => Except.error "attempt to get argmax of an empty sequence"
  | some c => Except.ok c.rect

/-! ## layout_processing.py -/

/-- Python str.isspace characters relevant to str.split and str.strip. -/
def pyIsSpace (c : Char) : Bool :=
  c = ' ' ∨ c = '\t' ∨ c = '\n' ∨ c = '\r' ∨ c = Char.ofNat 11 ∨ c = Char.ofNat 12

/-- Python str.strip: drop leading and trailing whitespace. -/
def pyStripL (l : List Char) : List Char :=
  ((l.dropWhile pyIsSpace).reverse.dropWhile pyIsSpace).reverse

/-- Python str.split(sep) for a single separator character. -/
def splitOnChar (sep : Char) : List Char → List (List Char)
  | [] => [[]]
  | c :: rest =>
    match splitOnChar sep rest with
    | [] => [[]]
    | h :: t => if c = sep then [] :: h :: t else (c :: h) :: t

/-- The line list of VotingSystem.process_votes:
[line.strip() for line in extracted_text.split('\n')]. -/
def pyLines (text : List Char) : List (List Char) :=
  (splitOnChar '\n' text).map pyStripL

/-- line.replace('[X]', ''): remove every occurrence of the literal
three-character substring. -/
def stripXBox : List Char → List Char
  | '[' :: 'X' :: ']' :: rest => stripXBox rest
  | c :: rest => c :: stripXBox rest
  | [] => []

/-- VoteExtractor.extract_vote: after removing '[X]', return the first
character that is a valid vote. -/
def extractVote (line : List Char) : Option String :=
  ((stripXBox line).find? (fun c => VALID_VOTES.contains (String.mk [c]))).map
    (fun c => String.mk [c])

/-- CANDIDATE_NAMES in layout_processing.py. -/
def CANDIDATE_NAMES : List String :=
  ["PAMUDU RANASINGHE", "KASUN JAYAWARDENA", "THARINDU FERNANDO",
   "SHENAL RATHNAYAKE", "MAHESHA HETTIARACHCHI", "RAVINDU WICKRAMASINGHE",
   "MANUJA WIJESINGHE", "ISURU KARUNARATNE"]

/-- ''.join(s.split()).upper(): remove all whitespace and uppercase. -/
def processNameL (l : List Char) : List Char :=
  (l.filter (fun c => !pyIsSpace c)).map Char.toUpper

/-- Python substring test: pat is a prefix of l. -/
def isPrefixOfL : List Char → List Char → Bool
  | [], _ => true
  | _ :: _, [] => false
  | a :: as, b :: bs => a == b && isPrefixOfL as bs

/-- Python substring test pat in l: pat is a contiguous substring of l. -/
def hasInfix (pat : List Char) : List Char → Bool
  | [] => isPrefixOfL pat []
  | b :: bs => isPrefixOfL pat (b :: bs) || hasInfix pat bs

/-- VoteExtractor.extract_candidate_name: the first candidate whose
processed name is a substring of the processed input line. -/
def extractCandidateName (line : List Char) : Option String :=
  CANDIDATE_NAMES.find? (fun n => hasInfix (processNameL n.data) (processNameL line))

/-- NAME_END_POSITION in layout_processing.py. -/
def NAME_END_POSITION : Nat := 20

/-- Python list indexing lines[i]: negative indices count from the back,
anything outside [-len, len) raises IndexError. -/
def pyIndex (l : List (List Char)) (i : Int) : Except String (List Char) :=
  if i < 0 then
    if i + l.length < 0 then Except.error "list index out of range"
    else
      match l.get? (i + l.length).toNat with
      | some x => Except.ok x
      | none => Except.error "list index out of range"
  else
    match l.get? i.toNat with
    | some x => Except.ok x
    | none => Except.error "list index out of range"

/-- The vote lookup of process_votes for the name-bearing line at index i:
try the current line after NAME_END_POSITION, then the previous line, then
the next line (Python's or short-circuits, so lines[i+1] is only indexed
when the previous line yielded no vote). -/
def voteForLine (lines : List (List Char)) (i : Nat) (line : List Char) :
    Except String (Option String) :=
  match extractVote (line.drop NAME_END_POSITION) with
  | some v => Except.ok (some v)
  | none =>
    match pyIndex lines ((i : Int) - 1) with
    | Except.error e => Except.error e
    | Except.ok prev =>
      match extractVote (prev.drop NAME_END_POSITION) with
      | some v => Except.ok (some v)
      | none =>
        match pyIndex lines ((i : Int) + 1) with
        | Except.error e => Except.error e
        | Except.ok next => Except.ok (extractVote (next.drop NAME_END_POSITION))

/-- Python enumerate, starting at k. -/
def enumFrom {α : Type} (k : Nat) : List α → List (Nat × α)
  | [] => []
  | x :: xs => (k, x) :: enumFrom (k + 1) xs

/-- The main loop of VotingSystem.process_votes over the enumerated lines:
when a line contains a candidate name, build its association record with
the 1-based running candidate_list_index; an IndexError aborts the whole
call. -/
def processLines (lines : List (List Char)) :
    List (Nat × List Char) → Nat → Except String (List Record)
  | [], _ => Except.ok []
  | (i, line) :: rest, count =>
    match extractCandidateName line with
    | none => processLines lines rest count
    | some name =>
      match voteForLine lines i line with
      | Except.error e => Except.error e
      | Except.ok vote =>
        match processLines lines rest (count + 1) with
        | Except.error e => Except.error e
        | Except.ok recs =>
          Except.ok (⟨count + 1, name, vote⟩ :: recs)

/-- VotingSystem.process_votes, from the structured text returned by the
OCR collaborator: iterate over the enumerated stripped lines. -/
def processVotes (text : List Char) : Except String (List Record) :=
  processLines (pyLines text) (enumFrom 0 (pyLines text)) 0

/-- Following the claim's words only (for comparison with extractVote,
which is translated from the source): the first valid vote character of a
line, with no prior removal of bracketed crosses. -/
def specFirstVoteChar (line : List Char) : Option String :=
  (line.find? (fun c => VALID_VOTES.contains (String.mk [c]))).map
    (fun c => String.mk [c])

/-! # Theorems

## C1: characterisation of VoteValidator.is_valid -/

theorem pySorted_perm (l : List String) : (pySorted l).Perm l :=
  List.perm_insertionSort pyStrLe l

theorem pySorted_eq_numbers_iff (ev : List String)
    (h : ∀ v ∈ ev, v ∈ VALID_VOTE_NUMBERS) :
    pySorted ev = VALID_VOTE_NUMBERS ↔ ev.Perm VALID_VOTE_NUMBERS := by
  constructor
  · intro hs
    exact hs ▸ (pySorted_perm ev).symm
  · intro hp
    have h3 : ev.length = 3 := by
      have := hp.length_eq
      simpa [VALID_VOTE_NUMBERS] using this
    obtain ⟨a, b, c, rfl⟩ := List.length_eq_three.mp h3
    have ha : a ∈ VALID_VOTE_NUMBERS := h a (by simp)
    have hb : b ∈ VALID_VOTE_NUMBERS := h b (by simp)
    have hc : c ∈ VALID_VOTE_NUMBERS := h c (by simp)
    simp only [VALID_VOTE_NUMBERS, List.mem_cons, List.mem_singleton,
      List.not_mem_nil, or_false] at ha hb hc
    rcases ha with rfl | rfl | rfl <;> rcases hb with rfl | rfl | rfl <;>
      rcases hc with rfl | rfl | rfl <;>
      first
        | decide
        | exact absurd (hp.count_eq "1") (by decide)
        | exact absurd (hp.count_eq "2") (by decide)

theorem isValidEv_iff (ev : List String) :
    isValidEv VALID_VOTE_CHARACTERS VALID_VOTE_NUMBERS ev = true ↔
      ((ev = ["X"] ∨ ev = ["x"]) ∨ ev.Perm VALID_VOTE_NUMBERS) := by
  constructor
  · intro h
    unfold isValidEv at h
    split_ifs at h with h0 h1 h2 h3 h4 h5
    · -- x_count = 0 branch, all numeric and sorted equal to the numbers
      have hmem : ∀ v ∈ ev, v ∈ VALID_VOTE_NUMBERS := by
        intro v hv
        have := List.all_eq_true.mp h4 v hv
        simpa using this
      have hsort : pySorted ev = VALID_VOTE_NUMBERS := not_ne_iff.mp h5
      exact Or.inr ((pySorted_eq_numbers_iff ev hmem).mp hsort)
    · -- x_count = 1 branch: a single cross character
      push_neg at h2
      have hx1 : xCount VALID_VOTE_CHARACTERS ev = 1 := by omega
      have hlen : ev.length = 1 := h2.2 hx1
      obtain ⟨v, rfl⟩ := List.length_eq_one.mp hlen
      by_cases hvX : v = "X"
      · exact Or.inl (Or.inl (by rw [hvX]))
      by_cases hvx : v = "x"
      · exact Or.inl (Or.inr (by rw [hvx]))
      · exfalso
        have : xCount VALID_VOTE_CHARACTERS [v] = 0 := by
          simp [xCount, VALID_VOTE_CHARACTERS, List.count_cons, hvX, hvx]
        omega
  · intro h
    rcases h with (rfl | rfl) | hp
    · decide
    · decide
    · have hne : ev ≠ [] := by
        intro h0
        rw [h0] at hp
        exact absurd hp.length_eq (by decide)
      have hmem : ∀ v ∈ ev, v ∈ VALID_VOTE_NUMBERS := fun v hv => hp.mem_iff.mp hv
      have hany :
          (ev.any fun v =>
            !(VALID_VOTE_CHARACTERS ++ VALID_VOTE_NUMBERS).contains v) = false := by
        rw [List.any_eq_false]
        intro v hv
        have := hmem v hv
        simp only [VALID_VOTE_NUMBERS, List.mem_cons, List.mem_singleton,
          List.not_mem_nil, or_false] at this
        rcases this with rfl | rfl | rfl <;> decide
      have hx : xCount VALID_VOTE_CHARACTERS ev = 0 := by
        unfold xCount VALID_VOTE_CHARACTERS
        simp only [List.map_cons, List.map_nil, List.sum_cons, List.sum_nil]
        rw [hp.count_eq "X", hp.count_eq "x"]
        decide
      have hall : (ev.all fun v => VALID_VOTE_NUMBERS.contains v) = true := by
        rw [List.all_eq_true]
        intro v hv
        have := hmem v hv
        simpa using this
      have hsort : pySorted ev = VALID_VOTE_NUMBERS :=
        (pySorted_eq_numbers_iff ev hmem).mpr hp
      simp [isValidEv, hne, hany, hx, hall, hsort]
      exact ⟨fun x hxv _ => hmem x hxv, hmem⟩

/-- Claim C1: VoteValidator.is_valid returns True exactly when the multiset
of extracted (non-None) marks is either a single cross character and nothing
else, or exactly one each of the numeric marks 1, 2, 3 in any order; an
empty extracted set, an invalid mark, several crosses, a cross mixed with
anything, or a missing, duplicated, or extra number all give False. -/
theorem is_valid_iff_one_cross_or_full_numbering (votes : List Record) :
    is_valid VALID_VOTE_CHARACTERS VALID_VOTE_NUMBERS votes = true ↔
      ((extractedVotes votes = ["X"] ∨ extractedVotes votes = ["x"]) ∨
        (extractedVotes votes).Perm VALID_VOTE_NUMBERS) :=
  isValidEv_iff (extractedVotes votes)

/-! ## C2: the first association rule

The spec states rule 1 as: the mark's vertical start falls within the
candidate box's vertical span.  The code tests the opposite containment:
name_y1 between symbol_pos y1 and y2. -/

/-- Claim C2, counterexample: the candidate box spans y 0..100 and the mark
spans y 50..200, so the mark's top edge (50) lies between the candidate
box's top and bottom edges, yet no rule associates them: rule 1 actually
tests whether the candidate's top edge lies in the mark's span. -/
theorem checkForVote_rule1_cx :
    (⟨0, 0, 40, 100⟩ : Box).y1 ≤ (⟨0, 50, 40, 200⟩ : Box).y1 ∧
    (⟨0, 50, 40, 200⟩ : Box).y1 ≤ (⟨0, 0, 40, 100⟩ : Box).y2 ∧
    checkForVote ⟨0, 0, 40, 100⟩ 0 [("cross", ⟨0, 50, 40, 200⟩)] = none := by
  decide

/-- Claim C2 (amended): the first matching rule associates a candidate with
a mark when the candidate box's vertical start falls within the mark's
vertical span: for every candidate bounding box whose top edge lies between
the top and bottom edges of the first mark in detection order, rule 1
produces an association tagged "1". -/
theorem checkForVote_rule1 (i : Nat) (name_pos mark : Box) (sym : String)
    (rest : List (String × Box))
    (h1 : mark.y1 ≤ name_pos.y1) (h2 : name_pos.y1 ≤ mark.y2) :
    checkForVote name_pos i ((sym, mark) :: rest) = some (i, sym, "1") := by
  unfold checkForVote
  rw [if_pos ⟨h1, h2⟩]

/-- Witness for the amended C2 at a concrete input. -/
theorem checkForVote_rule1_witness :
    ((10 : Int) ≤ 20 ∧ (20 : Int) ≤ 30) ∧
    checkForVote ⟨0, 20, 40, 60⟩ 5 [("one", ⟨0, 10, 40, 30⟩)] =
      some (5, "one", "1") :=
  ⟨⟨by decide, by decide⟩,
    checkForVote_rule1 5 ⟨0, 20, 40, 60⟩ ⟨0, 10, 40, 30⟩ "one" []
      (by decide) (by decide)⟩

/-! ## C3: the mark-above-name tolerance rule

The code compares the gap with a strict less-than against
POSITION_TOLERANCE = 10: a gap of exactly the tolerance does not
associate, and no 20px default exists in the associator. -/

/-- Claim C3, counterexample: a mark whose bottom edge (10) is exactly
POSITION_TOLERANCE pixels above the candidate's top edge (20) is not
associated, because the rule uses a strict less-than. -/
theorem checkForVote_top_boundary_cx :
    (⟨0, 20, 40, 100⟩ : Box).y1 - (⟨0, 0, 40, 10⟩ : Box).y2 = POSITION_TOLERANCE ∧
    checkForVote ⟨0, 20, 40, 100⟩ 0 [("cross", ⟨0, 0, 40, 10⟩)] = none := by
  decide

/-- Claim C3 (amended): for marks strictly above the candidate box, the
"mark above name" rule associates exactly the gaps strictly below the
tolerance: a gap of tolerance - 1 pixels associates with tag "TOP", while a
gap of tolerance pixels or more does not associate at all; the tolerance is
POSITION_TOLERANCE = 10 in the detector-based associator. -/
theorem checkForVote_top_rule (i : Nat) (name_pos mark : Box) (sym : String)
    (rest : List (String × Box))
    (hm : mark.y1 < mark.y2) (hn : name_pos.y1 < name_pos.y2)
    (hpos : 0 < name_pos.y1 - mark.y2) :
    POSITION_TOLERANCE = 10 ∧
    (name_pos.y1 - mark.y2 < POSITION_TOLERANCE →
      checkForVote name_pos i ((sym, mark) :: rest) = some (i, sym, "TOP")) ∧
    (POSITION_TOLERANCE ≤ name_pos.y1 - mark.y2 →
      checkForVote name_pos i [(sym, mark)] = none) := by
  refine ⟨rfl, ?_, ?_⟩
  · intro hlt
    unfold checkForVote
    rw [if_neg (by omega), if_neg (by omega),
      if_pos (by rw [abs_of_pos hpos]; exact hlt)]
  · intro hge
    unfold checkForVote
    rw [if_neg (by omega), if_neg (by omega),
      if_neg (by rw [abs_of_pos hpos]; omega),
      if_neg (by rw [abs_of_nonpos (by omega : mark.y1 - name_pos.y2 ≤ 0)]; omega)]
    rfl

/-- Witness for the amended C3 at concrete inputs: a gap of 9 pixels
associates with tag "TOP", a gap of 10 pixels does not associate. -/
theorem checkForVote_top_rule_witness :
    ((0 : Int) < 20 ∧ (19 : Int) < 100 ∧ (0 : Int) < 19 - 20 + 10 ∧
      (0 : Int) < 20 - 10) ∧
    checkForVote ⟨0, 19, 40, 100⟩ 0 [("two", ⟨0, 0, 40, 10⟩)] =
      some (0, "two", "TOP") ∧
    checkForVote ⟨0, 20, 40, 100⟩ 0 [("two", ⟨0, 0, 40, 10⟩)] = none :=
  ⟨⟨by decide, by decide, by decide, by decide⟩,
    (checkForVote_top_rule 0 ⟨0, 19, 40, 100⟩ ⟨0, 0, 40, 10⟩ "two" []
      (by decide) (by decide) (by decide)).2.1 (by decide),
    (checkForVote_top_rule 0 ⟨0, 20, 40, 100⟩ ⟨0, 0, 40, 10⟩ "two" []
      (by decide) (by decide) (by decide)).2.2 (by decide)⟩

/-! ## C4: candidates with no matching mark

find_names_and_votes only appends an association when _check_for_vote
returned one, so an unmatched candidate is dropped from the output rather
than kept with a None mark. -/

theorem checkForVote_some_fst :
    ∀ (syms : List (String × Box)) (b : Box) (i : Nat) (v : Nat × String × String),
      checkForVote b i syms = some v → v.1 = i := by
  intro syms
  induction syms with
  | nil => intro b i v h; simp [checkForVote] at h
  | cons hd tl ih =>
    obtain ⟨sym, sb⟩ := hd
    intro b i v h
    unfold checkForVote at h
    split_ifs at h with h1 h2 h3 h4
    · exact (Option.some.inj h) ▸ rfl
    · exact (Option.some.inj h) ▸ rfl
    · exact (Option.some.inj h) ▸ rfl
    · exact (Option.some.inj h) ▸ rfl
    · exact ih b i v h

theorem mem_findNamesAndVotesAux_of (syms : List (String × Box)) :
    ∀ (boxes : List Detection) (i0 j : Nat) (d : Detection)
      (v : Nat × String × String),
      boxes.get? j = some d → d.cls = CLASS_NAME_TO_IGNORE →
      checkForVote d.box (i0 + j) syms = some v →
      v ∈ findNamesAndVotesAux syms i0 boxes := by
  intro boxes
  induction boxes with
  | nil => intro i0 j d v hget; simp at hget
  | cons hd tl ih =>
    intro i0 j d v hget hcls hchk
    match j with
    | 0 =>
      have hd_eq : hd = d := by simpa using hget
      subst hd_eq
      unfold findNamesAndVotesAux
      rw [if_pos hcls]
      rw [show i0 + 0 = i0 from rfl] at hchk
      rw [hchk]
      exact List.mem_cons_self v _
    | Nat.succ j' =>
      have hget' : tl.get? j' = some d := by simpa using hget
      have hchk' : checkForVote d.box ((i0 + 1) + j') syms = some v := by
        rw [show (i0 + 1) + j' = i0 + (j' + 1) by omega]
        exact hchk
      have hmem := ih (i0 + 1) j' d v hget' hcls hchk'
      unfold findNamesAndVotesAux
      split_ifs with hc
      · cases hchk2 : checkForVote hd.box i0 syms with
        | none => exact hmem
        | some w => exact List.mem_cons_of_mem w hmem
      · exact hmem

theorem mem_findNamesAndVotesAux_to (syms : List (String × Box)) :
    ∀ (boxes : List Detection) (i0 : Nat) (r : Nat × String × String),
      r ∈ findNamesAndVotesAux syms i0 boxes →
      ∃ j d, boxes.get? j = some d ∧ d.cls = CLASS_NAME_TO_IGNORE ∧
        checkForVote d.box (i0 + j) syms = some r := by
  intro boxes
  induction boxes with
  | nil => intro i0 r hr; simp [findNamesAndVotesAux] at hr
  | cons hd tl ih =>
    intro i0 r hr
    unfold findNamesAndVotesAux at hr
    split_ifs at hr with hc
    · cases hchk : checkForVote hd.box i0 syms with
      | none =>
        rw [hchk] at hr
        obtain ⟨j, d, hget, hcls, hchk'⟩ := ih (i0 + 1) r hr
        exact ⟨j + 1, d, by simpa using hget, hcls,
          by rw [show i0 + (j + 1) = (i0 + 1) + j by omega]; exact hchk'⟩
      | some w =>
        rw [hchk] at hr
        rcases List.mem_cons.mp hr with rfl | hr'
        · exact ⟨0, hd, rfl, hc, by simpa using hchk⟩
        · obtain ⟨j, d, hget, hcls, hchk'⟩ := ih (i0 + 1) r hr'
          exact ⟨j + 1, d, by simpa using hget, hcls,
            by rw [show i0 + (j + 1) = (i0 + 1) + j by omega]; exact hchk'⟩
    · obtain ⟨j, d, hget, hcls, hchk'⟩ := ih (i0 + 1) r hr
      exact ⟨j + 1, d, by simpa using hget, hcls,
        by rw [show i0 + (j + 1) = (i0 + 1) + j by omega]; exact hchk'⟩

/-- Claim C4, counterexample: an input with exactly one candidate region
and no mark detections produces an empty output, not one record with a
None mark: the unmatched candidate is dropped. -/
theorem findNamesAndVotes_drops_unmatched_cx :
    findNamesAndVotes [⟨"name", ⟨0, 0, 40, 100⟩⟩] = [] := by
  decide

/-- Claim C4 (amended): the output of find_names_and_votes contains a
record for a candidate region exactly when one of the four rules matched
some mark for it: when _check_for_vote returns an association it appears
in the output, and when it returns None the candidate is dropped — no
record with its enumeration index is emitted at all. -/
theorem findNamesAndVotes_matched_iff_present (boxes : List Detection)
    (j : Nat) (d : Detection) (hget : boxes.get? j = some d)
    (hcls : d.cls = CLASS_NAME_TO_IGNORE) :
    ((checkForVote d.box j (extractVoteSymbols boxes) = none →
        ∀ r ∈ findNamesAndVotes boxes, r.1 ≠ j) ∧
      (∀ v, checkForVote d.box j (extractVoteSymbols boxes) = some v →
        v ∈ findNamesAndVotes boxes)) := by
  constructor
  · intro hnone r hr heq
    obtain ⟨j', d', hget', hcls', hchk'⟩ :=
      mem_findNamesAndVotesAux_to (extractVoteSymbols boxes) boxes 0 r hr
    have hfst : r.1 = 0 + j' :=
      checkForVote_some_fst (extractVoteSymbols boxes) d'.box (0 + j') r hchk'
    have hjj : j' = j := by omega
    subst hjj
    have hdd : d' = d := by
      have := hget'.symm.trans hget
      exact Option.some.inj this
    subst hdd
    rw [Nat.zero_add] at hchk'
    rw [hnone] at hchk'
    cases hchk'
  · intro v hv
    exact mem_findNamesAndVotesAux_of (extractVoteSymbols boxes) boxes 0 j d v
      hget hcls (by rw [Nat.zero_add]; exact hv)

/-- Witness for the amended C4 at a concrete input: a single candidate
region with no matching mark contributes no record. -/
theorem findNamesAndVotes_matched_iff_present_witness :
    ([⟨"name", ⟨0, 0, 40, 100⟩⟩] : List Detection).get? 0 =
        some ⟨"name", ⟨0, 0, 40, 100⟩⟩ ∧
    ("name" : String) = CLASS_NAME_TO_IGNORE ∧
    ((checkForVote ⟨0, 0, 40, 100⟩ 0
        (extractVoteSymbols [⟨"name", ⟨0, 0, 40, 100⟩⟩]) = none →
        ∀ r ∈ findNamesAndVotes [⟨"name", ⟨0, 0, 40, 100⟩⟩], r.1 ≠ 0) ∧
      (∀ v, checkForVote ⟨0, 0, 40, 100⟩ 0
          (extractVoteSymbols [⟨"name", ⟨0, 0, 40, 100⟩⟩]) = some v →
        v ∈ findNamesAndVotes [⟨"name", ⟨0, 0, 40, 100⟩⟩])) :=
  ⟨rfl, rfl,
    findNamesAndVotes_matched_iff_present [⟨"name", ⟨0, 0, 40, 100⟩⟩] 0
      ⟨"name", ⟨0, 0, 40, 100⟩⟩ rfl rfl⟩

/-! ## C5: row segmentation -/

theorem intervalsOf_length : ∀ bs : List Nat, (intervalsOf bs).length = bs.length - 1 := by
  intro bs
  induction bs with
  | nil => rfl
  | cons a tail ih =>
    cases tail with
    | nil => rfl
    | cons b rest =>
      rw [intervalsOf]
      simp only [List.length_cons] at ih ⊢
      omega

theorem intervalsOf_chain :
    ∀ bs : List Nat, List.Chain' (fun p q : Nat × Nat => p.2 = q.1) (intervalsOf bs) := by
  intro bs
  induction bs with
  | nil => simp [intervalsOf]
  | cons a tail ih =>
    cases tail with
    | nil => simp [intervalsOf]
    | cons b rest =>
      rw [intervalsOf]
      refine List.chain'_cons'.mpr ⟨?_, ih⟩
      intro q hq
      cases rest with
      | nil => simp [intervalsOf] at hq
      | cons c r =>
        rw [intervalsOf] at hq
        simp only [List.head?_cons, Option.mem_def, Option.some.injEq] at hq
        rw [← hq]

theorem intervalsOf_head_map : ∀ (x : Nat) (l : List Nat), l ≠ [] →
    ((intervalsOf (x :: l)).head?).map (fun p => p.1) = some x := by
  intro x l hl
  cases l with
  | nil => exact absurd rfl hl
  | cons b r => rfl

theorem intervalsOf_getLast_map :
    ∀ (rest : List Nat) (a b : Nat),
      ((intervalsOf (a :: b :: rest)).getLast?).map (fun p => p.2) =
        some (rest.getLastD b) := by
  intro rest
  induction rest with
  | nil => intro a b; rfl
  | cons c r ih =>
    intro a b
    rw [show intervalsOf (a :: b :: c :: r) =
        (a, b) :: intervalsOf (b :: c :: r) from rfl]
    rw [show intervalsOf (b :: c :: r) = (b, c) :: intervalsOf (c :: r) from rfl]
    rw [List.getLast?_cons_cons]
    rw [show (b, c) :: intervalsOf (c :: r) = intervalsOf (b :: c :: r) from rfl]
    rw [ih b c]
    rw [List.getLastD_cons]

theorem chain'_le_getLastD :
    ∀ (l : List Nat) (b : Nat), List.Chain' (· ≤ ·) (b :: l) → b ≤ l.getLastD b := by
  intro l
  induction l with
  | nil => intro b _; exact Nat.le_refl b
  | cons c r ih =>
    intro b hchain
    rw [List.getLastD_cons]
    have h1 : b ≤ c := (List.chain'_cons.mp hchain).1
    have h2 : c ≤ r.getLastD c := ih c (List.chain'_cons.mp hchain).2
    exact Nat.le_trans h1 h2

theorem intervalsOf_countP (y : Nat) :
    ∀ (rest : List Nat) (a : Nat), List.Chain' (· ≤ ·) (a :: rest) →
      (intervalsOf (a :: rest)).countP (fun p => decide (p.1 ≤ y ∧ y < p.2)) =
        if a ≤ y ∧ y < rest.getLastD a then 1 else 0 := by
  intro rest
  induction rest with
  | nil =>
    intro a _
    rw [show intervalsOf [a] = [] from rfl]
    rw [List.getLastD_nil]
    simp only [List.countP_nil]
    split_ifs with hcond
    · omega
    · rfl
  | cons b r ih =>
    intro a hchain
    have hab : a ≤ b := (List.chain'_cons.mp hchain).1
    have hchain' : List.Chain' (fun p q : Nat => p ≤ q) (b :: r) :=
      (List.chain'_cons.mp hchain).2
    have hbL : b ≤ r.getLastD b := chain'_le_getLastD r b hchain'
    rw [show intervalsOf (a :: b :: r) = (a, b) :: intervalsOf (b :: r) from rfl]
    rw [List.countP_cons, ih b hchain', List.getLastD_cons]
    simp only [decide_eq_true_eq]
    split_ifs <;> omega

theorem getLastD_append_one :
    ∀ (l : List Nat) (a h : Nat), (l ++ [h]).getLastD a = h := by
  intro l
  induction l with
  | nil => intro a h; rfl
  | cons c r ih =>
    intro a h
    rw [List.cons_append, List.getLastD_cons]
    exact ih c h

/-- The boundary list that divide_image_by_lines slices between. -/
theorem divide_image_by_lines_eq (h w : Nat) (lines : List HLine) :
    divide_image_by_lines h w lines =
      intervalsOf
        (0 :: ((List.insertionSort hlineLe lines).map (fun l => l.y1) ++ [h])) := by
  unfold divide_image_by_lines
  simp [List.map_cons, List.map_append]

/-- Structural facts about the row intervals cut from a sorted, bounded
boundary list 0 :: (ys ++ [h]). -/
theorem boundaries_spec (h : Nat) (ys : List Nat)
    (hsorted : List.Pairwise (fun a b : Nat => a ≤ b) ys)
    (hle : ∀ a ∈ ys, a ≤ h) :
    (intervalsOf (0 :: (ys ++ [h]))).length = ys.length + 1 ∧
    ((intervalsOf (0 :: (ys ++ [h]))).head?).map (fun p => p.1) = some 0 ∧
    ((intervalsOf (0 :: (ys ++ [h]))).getLast?).map (fun p => p.2) = some h ∧
    (∀ y, y < h →
      (intervalsOf (0 :: (ys ++ [h]))).countP
        (fun p => decide (p.1 ≤ y ∧ y < p.2)) = 1) := by
  have hchainB : List.Chain' (fun a b : Nat => a ≤ b) (0 :: (ys ++ [h])) := by
    rw [List.chain'_iff_pairwise]
    refine List.pairwise_cons.mpr ⟨fun b _ => Nat.zero_le b, ?_⟩
    refine List.pairwise_append.mpr ⟨hsorted, List.pairwise_singleton _ _, ?_⟩
    intro a ha b hb
    rw [List.mem_singleton] at hb
    exact hb ▸ hle a ha
  refine ⟨?_, ?_, ?_, ?_⟩
  · rw [intervalsOf_length]
    simp only [List.length_cons, List.length_append, List.length_singleton,
      List.length_nil]
    omega
  · exact intervalsOf_head_map 0 (ys ++ [h]) (by simp)
  · cases ys with
    | nil => rfl
    | cons a t =>
      rw [List.cons_append, intervalsOf_getLast_map (t ++ [h]) 0 a,
        getLastD_append_one]
  · intro y hyh
    rw [intervalsOf_countP y (ys ++ [h]) 0 hchainB, getLastD_append_one]
    rw [if_pos ⟨Nat.zero_le y, hyh⟩]

/-- Claim C5: detect_horizontal_lines keeps exactly the contour rectangles
whose width exceeds MIN_LINE_WIDTH = 300 pixels; divide_image_by_lines
sorts the surviving lines by y, adds virtual boundaries at 0 and at the
image height, and produces one interval fewer than there are boundary
lines; the resulting row intervals are contiguous, start at 0, end at the
image height, and every pixel row below the image height lies in exactly
one interval (so the rows are non-overlapping and cover the image). -/
theorem rowSegmentation_spec (h w : Nat) (rects : List Rect)
    (hy : ∀ l ∈ detect_horizontal_lines rects, l.y1 ≤ h) :
    (∀ l, l ∈ detect_horizontal_lines rects ↔
        ∃ r ∈ rects, MIN_LINE_WIDTH < r.w ∧
          l = ⟨r.x, r.y, r.x + r.w, r.y + r.h⟩) ∧
    (divide_image_by_lines h w (detect_horizontal_lines rects)).length =
        (detect_horizontal_lines rects).length + 1 ∧
    List.Chain' (fun p q => p.2 = q.1)
        (divide_image_by_lines h w (detect_horizontal_lines rects)) ∧
    ((divide_image_by_lines h w (detect_horizontal_lines rects)).head?).map
        (fun p => p.1) = some 0 ∧
    ((divide_image_by_lines h w (detect_horizontal_lines rects)).getLast?).map
        (fun p => p.2) = some h ∧
    (∀ y, y < h →
      (divide_image_by_lines h w (detect_horizontal_lines rects)).countP
          (fun p => decide (p.1 ≤ y ∧ y < p.2)) = 1) := by
  have hmem_iff : ∀ l, l ∈ detect_horizontal_lines rects ↔
      ∃ r ∈ rects, MIN_LINE_WIDTH < r.w ∧
        l = ⟨r.x, r.y, r.x + r.w, r.y + r.h⟩ := by
    intro l
    unfold detect_horizontal_lines
    simp only [List.mem_map, List.mem_filter, decide_eq_true_eq]
    constructor
    · rintro ⟨r, ⟨hr, hw2⟩, rfl⟩
      exact ⟨r, hr, hw2, rfl⟩
    · rintro ⟨r, hr, hw2, rfl⟩
      exact ⟨r, ⟨hr, hw2⟩, rfl⟩
  have hys_sorted : List.Pairwise (fun a b : Nat => a ≤ b)
      ((List.insertionSort hlineLe (detect_horizontal_lines rects)).map
        (fun l => l.y1)) :=
    List.pairwise_map.mpr
      (List.sorted_insertionSort hlineLe (detect_horizontal_lines rects))
  have hys_le : ∀ a ∈ (List.insertionSort hlineLe
      (detect_horizontal_lines rects)).map (fun l => l.y1), a ≤ h := by
    intro a ha
    obtain ⟨l, hl, rfl⟩ := List.mem_map.mp ha
    exact hy l
      ((List.perm_insertionSort hlineLe (detect_horizontal_lines rects)).mem_iff.mp hl)
  obtain ⟨hb1, hb2, hb3, hb4⟩ := boundaries_spec h
    ((List.insertionSort hlineLe (detect_horizontal_lines rects)).map
      (fun l => l.y1)) hys_sorted hys_le
  rw [divide_image_by_lines_eq h w (detect_horizontal_lines rects)]
  refine ⟨hmem_iff, ?_, intervalsOf_chain _, hb2, hb3, hb4⟩
  rw [hb1, List.length_map]
  rw [(List.perm_insertionSort hlineLe (detect_horizontal_lines rects)).length_eq]

/-- Witness for C5 at a concrete input: one wide rectangle survives the
width filter and the 10-pixel-high image is cut into two rows. -/
theorem rowSegmentation_spec_witness :
    (∀ l ∈ detect_horizontal_lines [⟨0, 4, 301, 1⟩, ⟨2, 2, 100, 1⟩], l.y1 ≤ 10) ∧
    ((∀ l, l ∈ detect_horizontal_lines [⟨0, 4, 301, 1⟩, ⟨2, 2, 100, 1⟩] ↔
        ∃ r ∈ ([⟨0, 4, 301, 1⟩, ⟨2, 2, 100, 1⟩] : List Rect),
          MIN_LINE_WIDTH < r.w ∧ l = ⟨r.x, r.y, r.x + r.w, r.y + r.h⟩) ∧
      (divide_image_by_lines 10 5
          (detect_horizontal_lines [⟨0, 4, 301, 1⟩, ⟨2, 2, 100, 1⟩])).length =
        (detect_horizontal_lines [⟨0, 4, 301, 1⟩, ⟨2, 2, 100, 1⟩]).length + 1 ∧
      List.Chain' (fun p q => p.2 = q.1)
        (divide_image_by_lines 10 5
          (detect_horizontal_lines [⟨0, 4, 301, 1⟩, ⟨2, 2, 100, 1⟩])) ∧
      ((divide_image_by_lines 10 5
          (detect_horizontal_lines [⟨0, 4, 301, 1⟩, ⟨2, 2, 100, 1⟩])).head?).map
          (fun p => p.1) = some 0 ∧
      ((divide_image_by_lines 10 5
          (detect_horizontal_lines [⟨0, 4, 301, 1⟩, ⟨2, 2, 100, 1⟩])).getLast?).map
          (fun p => p.2) = some 10 ∧
      (∀ y, y < 10 →
        (divide_image_by_lines 10 5
            (detect_horizontal_lines [⟨0, 4, 301, 1⟩, ⟨2, 2, 100, 1⟩])).countP
            (fun p => decide (p.1 ≤ y ∧ y < p.2)) = 1)) :=
  ⟨by decide, rowSegmentation_spec 10 5 [⟨0, 4, 301, 1⟩, ⟨2, 2, 100, 1⟩] (by decide)⟩

/-! ## C6: template matching acceptance -/

theorem identifyLoop_eq_none (threshold : ℚ) :
    ∀ (ms : List TMatch) (best : Option TMatch),
      identifyLoop threshold ms best = none →
      best = none ∧ ∀ m ∈ ms, m.val ≤ threshold := by
  intro ms
  induction ms with
  | nil =>
    intro best h
    exact ⟨h, by simp⟩
  | cons m rest ih =>
    intro best h
    cases best with
    | none =>
      rw [identifyLoop] at h
      by_cases hc : threshold < m.val
      · rw [if_pos hc] at h
        exact absurd (ih (some m) h).1 (by simp)
      · rw [if_neg hc] at h
        obtain ⟨_, hall⟩ := ih none h
        refine ⟨rfl, ?_⟩
        intro m' hm'
        rcases List.mem_cons.mp hm' with rfl | hm'
        · exact not_lt.mp hc
        · exact hall m' hm'
    | some b =>
      rw [identifyLoop] at h
      by_cases hc : b.val < m.val ∧ threshold < m.val
      · rw [if_pos hc] at h
        exact absurd (ih (some m) h).1 (by simp)
      · rw [if_neg hc] at h
        exact absurd (ih (some b) h).1 (by simp)

theorem identifyLoop_eq_some (threshold : ℚ) :
    ∀ (ms : List TMatch) (best : Option TMatch) (r : TMatch),
      identifyLoop threshold ms best = some r →
      (∀ b, best = some b → threshold < b.val) →
      threshold < r.val ∧ (best = some r ∨ r ∈ ms) ∧
        (∀ m ∈ ms, m.val ≤ threshold ∨ m.val ≤ r.val) ∧
        (∀ b, best = some b → b.val ≤ r.val) := by
  intro ms
  induction ms with
  | nil =>
    intro best r h hb
    rw [identifyLoop] at h
    refine ⟨hb r h, Or.inl h, by simp, ?_⟩
    intro b hbb
    cases Option.some.inj (hbb.symm.trans h)
    exact le_rfl
  | cons m rest ih =>
    intro best r h hb
    cases best with
    | none =>
      rw [identifyLoop] at h
      by_cases hc : threshold < m.val
      · rw [if_pos hc] at h
        obtain ⟨hr, hor, hall, hbest⟩ := ih (some m) r h
          (fun b hbb => by cases Option.some.inj hbb; exact hc)
        refine ⟨hr, ?_, ?_, by simp⟩
        · rcases hor with hor | hor
          · exact Or.inr (by rw [← Option.some.inj hor]; exact List.mem_cons_self m rest)
          · exact Or.inr (List.mem_cons_of_mem m hor)
        · intro m' hm'
          rcases List.mem_cons.mp hm' with rfl | hm'
          · exact Or.inr (hbest m' rfl)
          · exact hall m' hm'
      · rw [if_neg hc] at h
        obtain ⟨hr, hor, hall, _⟩ := ih none r h (by simp)
        refine ⟨hr, ?_, ?_, by simp⟩
        · rcases hor with hor | hor
          · exact absurd hor (by simp)
          · exact Or.inr (List.mem_cons_of_mem m hor)
        · intro m' hm'
          rcases List.mem_cons.mp hm' with rfl | hm'
          · exact Or.inl (not_lt.mp hc)
          · exact hall m' hm'
    | some b =>
      have hbval : threshold < b.val := hb b rfl
      rw [identifyLoop] at h
      by_cases hc : b.val < m.val ∧ threshold < m.val
      · rw [if_pos hc] at h
        obtain ⟨hr, hor, hall, hbest⟩ := ih (some m) r h
          (fun b' hbb => by cases Option.some.inj hbb; exact hc.2)
        have hmr : m.val ≤ r.val := hbest m rfl
        refine ⟨hr, ?_, ?_, ?_⟩
        · rcases hor with hor | hor
          · exact Or.inr (by rw [← Option.some.inj hor]; exact List.mem_cons_self m rest)
          · exact Or.inr (List.mem_cons_of_mem m hor)
        · intro m' hm'
          rcases List.mem_cons.mp hm' with rfl | hm'
          · exact Or.inr hmr
          · exact hall m' hm'
        · intro b' hbb
          cases Option.some.inj hbb
          exact le_of_lt (lt_of_lt_of_le hc.1 hmr)
      · rw [if_neg hc] at h
        obtain ⟨hr, hor, hall, hbest⟩ := ih (some b) r h
          (fun b' hbb => by cases Option.some.inj hbb; exact hbval)
        have hbr : b.val ≤ r.val := hbest b rfl
        refine ⟨hr, ?_, ?_, ?_⟩
        · rcases hor with hor | hor
          · exact Or.inl hor
          · exact Or.inr (List.mem_cons_of_mem m hor)
        · intro m' hm'
          rcases List.mem_cons.mp hm' with rfl | hm'
          · rcases not_and_or.mp hc with hc1 | hc2
            · exact Or.inr (le_trans (not_lt.mp hc1) hbr)
            · exact Or.inl (not_lt.mp hc2)
          · exact hall m' hm'
        · intro b' hbb
          cases Option.some.inj hbb
          exact hbr

/-- Claim C6: identify_symbol returns the symbol, location and score of a
best-scoring template exactly when the best score exceeds the threshold
(default THRESHOLD = 0.6); when no template's score exceeds the threshold
it returns "Unknown" with no location and no confidence; and the
proportional downscaling of an oversized template always fits it inside
the row sub-image. -/
theorem identify_symbol_spec (ms : List TMatch)
    (hs : ∀ m ∈ ms, m.symbol ≠ "") :
    ((∀ m ∈ ms, m.val ≤ THRESHOLD) →
        identify_symbol THRESHOLD ms = ("Unknown", none, none)) ∧
    ((∃ m ∈ ms, THRESHOLD < m.val) →
        ∃ r ∈ ms, identify_symbol THRESHOLD ms = (r.symbol, some r.loc, some r.val) ∧
          THRESHOLD < r.val ∧ ∀ m ∈ ms, m.val ≤ r.val) ∧
    (∀ imgH imgW tH tW : Nat, 0 < tH → 0 < tW →
        (imgH < tH ∨ imgW < tW) →
        (scaledSize imgH imgW tH tW).1 ≤ imgW ∧
        (scaledSize imgH imgW tH tW).2 ≤ imgH) := by
  refine ⟨?_, ?_, ?_⟩
  · intro hall
    unfold identify_symbol
    cases hres : identifyLoop THRESHOLD ms none with
    | none => rfl
    | some r =>
      obtain ⟨hr, hor, _, _⟩ := identifyLoop_eq_some THRESHOLD ms none r hres (by simp)
      rcases hor with hor | hor
      · exact absurd hor (by simp)
      · exact absurd hr (not_lt.mpr (hall r hor))
  · rintro ⟨m0, hm0, hv0⟩
    cases hres : identifyLoop THRESHOLD ms none with
    | none =>
      obtain ⟨_, hall⟩ := identifyLoop_eq_none THRESHOLD ms none hres
      exact absurd hv0 (not_lt.mpr (hall m0 hm0))
    | some r =>
      obtain ⟨hr, hor, hall, _⟩ := identifyLoop_eq_some THRESHOLD ms none r hres (by simp)
      have hrmem : r ∈ ms := by
        rcases hor with hor | hor
        · exact absurd hor (by simp)
        · exact hor
      refine ⟨r, hrmem, ?_, hr, ?_⟩
      · unfold identify_symbol
        rw [hres]
        simp [hs r hrmem]
      · intro m hm
        rcases hall m hm with h1 | h1
        · exact le_of_lt (lt_of_le_of_lt h1 hr)
        · exact h1
  · intro imgH imgW tH tW htH htW _
    have htH0 : (tH : ℚ) ≠ 0 := Nat.cast_ne_zero.mpr (Nat.pos_iff_ne_zero.mp htH)
    have htW0 : (tW : ℚ) ≠ 0 := Nat.cast_ne_zero.mpr (Nat.pos_iff_ne_zero.mp htW)
    constructor
    · have h1 : (tW : ℚ) * min ((imgH : ℚ) / (tH : ℚ)) ((imgW : ℚ) / (tW : ℚ)) ≤
          (imgW : ℚ) := by
        calc (tW : ℚ) * min ((imgH : ℚ) / (tH : ℚ)) ((imgW : ℚ) / (tW : ℚ))
            ≤ (tW : ℚ) * ((imgW : ℚ) / (tW : ℚ)) :=
              mul_le_mul_of_nonneg_left (min_le_right _ _) (Nat.cast_nonneg tW)
          _ = (imgW : ℚ) := by rw [mul_comm]; exact div_mul_cancel₀ _ htW0
      calc (scaledSize imgH imgW tH tW).1 ≤ ⌊(imgW : ℚ)⌋₊ := Nat.floor_le_floor h1
        _ = imgW := Nat.floor_natCast imgW
    · have h2 : (tH : ℚ) * min ((imgH : ℚ) / (tH : ℚ)) ((imgW : ℚ) / (tW : ℚ)) ≤
          (imgH : ℚ) := by
        calc (tH : ℚ) * min ((imgH : ℚ) / (tH : ℚ)) ((imgW : ℚ) / (tW : ℚ))
            ≤ (tH : ℚ) * ((imgH : ℚ) / (tH : ℚ)) :=
              mul_le_mul_of_nonneg_left (min_le_left _ _) (Nat.cast_nonneg tH)
          _ = (imgH : ℚ) := by rw [mul_comm]; exact div_mul_cancel₀ _ htH0
      calc (scaledSize imgH imgW tH tW).2 ≤ ⌊(imgH : ℚ)⌋₊ := Nat.floor_le_floor h2
        _ = imgH := Nat.floor_natCast imgH

/-- Witness for C6 at a concrete input: the template scoring 0.7 with
non-empty symbol name is returned; the one scoring 0.5 is not. -/
theorem identify_symbol_spec_witness :
    (∀ m ∈ ([⟨"cross", 7/10, (3, 4)⟩, ⟨"one", 1/2, (0, 0)⟩] : List TMatch),
        m.symbol ≠ "") ∧
    (((∀ m ∈ ([⟨"cross", 7/10, (3, 4)⟩, ⟨"one", 1/2, (0, 0)⟩] : List TMatch),
          m.val ≤ THRESHOLD) →
        identify_symbol THRESHOLD [⟨"cross", 7/10, (3, 4)⟩, ⟨"one", 1/2, (0, 0)⟩] =
          ("Unknown", none, none)) ∧
      ((∃ m ∈ ([⟨"cross", 7/10, (3, 4)⟩, ⟨"one", 1/2, (0, 0)⟩] : List TMatch),
          THRESHOLD < m.val) →
        ∃ r ∈ ([⟨"cross", 7/10, (3, 4)⟩, ⟨"one", 1/2, (0, 0)⟩] : List TMatch),
          identify_symbol THRESHOLD [⟨"cross", 7/10, (3, 4)⟩, ⟨"one", 1/2, (0, 0)⟩] =
            (r.symbol, some r.loc, some r.val) ∧
          THRESHOLD < r.val ∧
          ∀ m ∈ ([⟨"cross", 7/10, (3, 4)⟩, ⟨"one", 1/2, (0, 0)⟩] : List TMatch),
            m.val ≤ r.val) ∧
      (∀ imgH imgW tH tW : Nat, 0 < tH → 0 < tW →
          (imgH < tH ∨ imgW < tW) →
          (scaledSize imgH imgW tH tW).1 ≤ imgW ∧
          (scaledSize imgH imgW tH tW).2 ≤ imgH)) :=
  ⟨by decide,
    identify_symbol_spec [⟨"cross", 7/10, (3, 4)⟩, ⟨"one", 1/2, (0, 0)⟩] (by decide)⟩

/-! ## C7: rectification failure on an empty contour set -/

/-- Claim C7: when the contour set extracted from the thresholded image is
empty, warp_perspective aborts with the np.argmax error and produces no
output: no warped color or binary image is returned for that ballot. -/
theorem warp_perspective_empty_aborts :
    warp_perspective [] =
      Except.error "attempt to get argmax of an empty sequence" := rfl

/-! ## C9: the vote-symbol dictionary keeps one box per class -/

theorem dictLookup_insert_self (k : String) (v : Box) :
    ∀ d, dictLookup k (dictInsert k v d) = some v := by
  intro d
  induction d with
  | nil => simp [dictInsert, dictLookup]
  | cons hd tl ih =>
    obtain ⟨k', v'⟩ := hd
    by_cases h : k' = k
    · simp [dictInsert, dictLookup, h]
    · simp [dictInsert, dictLookup, h, ih]

theorem dictLookup_insert_ne (k k' : String) (v : Box) (h : k' ≠ k) :
    ∀ d, dictLookup k (dictInsert k' v d) = dictLookup k d := by
  intro d
  induction d with
  | nil => simp [dictInsert, dictLookup, h]
  | cons hd tl ih =>
    obtain ⟨k'', v''⟩ := hd
    by_cases h2 : k'' = k'
    · subst h2
      simp [dictInsert, dictLookup, h, Ne.symm h]
    · by_cases h3 : k'' = k
      · simp [dictInsert, dictLookup, h2, h3, Ne.symm h]
      · simp [dictInsert, dictLookup, h2, h3, ih]

theorem keys_dictInsert (k : String) (v : Box) :
    ∀ d : List (String × Box),
      (dictInsert k v d).map Prod.fst =
        if k ∈ d.map Prod.fst then d.map Prod.fst
        else d.map Prod.fst ++ [k] := by
  intro d
  induction d with
  | nil => simp [dictInsert]
  | cons hd tl ih =>
    obtain ⟨k', v'⟩ := hd
    by_cases h2 : k' = k
    · subst h2
      simp [dictInsert]
    · rw [show dictInsert k v ((k', v') :: tl) =
          (k', v') :: dictInsert k v tl by simp [dictInsert, h2]]
      by_cases h3 : k ∈ tl.map Prod.fst
      · simp [ih, h3]
      · have h4 : k ∉ ((k', v') :: tl).map Prod.fst := by
          simp [Ne.symm h2, h3]
        simp [ih, h3, h4, Ne.symm h2]

theorem nodup_keys_dictInsert (k : String) (v : Box) :
    ∀ d, ((d : List (String × Box)).map Prod.fst).Nodup →
      ((dictInsert k v d).map Prod.fst).Nodup := by
  intro d h
  rw [keys_dictInsert]
  by_cases h2 : k ∈ d.map Prod.fst
  · simpa [h2] using h
  · simp [h2, List.nodup_append, h]

theorem nodup_keys_foldl :
    ∀ (boxes : List Detection) (acc : List (String × Box)),
      (acc.map Prod.fst).Nodup →
      ((boxes.foldl symStep acc).map Prod.fst).Nodup := by
  intro boxes
  induction boxes with
  | nil => intro acc h; exact h
  | cons hd tl ih =>
    intro acc h
    rw [List.foldl_cons]
    refine ih (symStep acc hd) ?_
    unfold symStep
    split_ifs with hc
    · exact nodup_keys_dictInsert hd.cls hd.box acc h
    · exact h

theorem dictLookup_foldl (l : String) (hl : l ≠ CLASS_NAME_TO_IGNORE) :
    ∀ (boxes : List Detection) (acc : List (String × Box)),
      dictLookup l (boxes.foldl symStep acc) =
        ((boxes.filter (fun d => d.cls == l)).getLast?).elim
          (dictLookup l acc) (fun d => some d.box) := by
  intro boxes
  induction boxes with
  | nil => intro acc; simp
  | cons hd tl ih =>
    intro acc
    rw [List.foldl_cons, ih (symStep acc hd)]
    by_cases hc : hd.cls = l
    · have hfilter : (hd :: tl).filter (fun d => d.cls == l) =
          hd :: tl.filter (fun d => d.cls == l) := by
        simp [List.filter_cons, hc]
      rw [hfilter]
      cases hrest : tl.filter (fun d => d.cls == l) with
      | nil =>
        have hstep : symStep acc hd = dictInsert hd.cls hd.box acc := by
          unfold symStep
          rw [if_pos (fun h => hl (hc ▸ h))]
        rw [hstep, hc, dictLookup_insert_self]
        rfl
      | cons e es =>
        rw [List.getLast?_cons_cons]
        cases hsome : (e :: es).getLast? with
        | none => simp at hsome
        | some x => rfl
    · have hfilter : (hd :: tl).filter (fun d => d.cls == l) =
          tl.filter (fun d => d.cls == l) := by
        simp [List.filter_cons, hc]
      rw [hfilter]
      have hstep : dictLookup l (symStep acc hd) = dictLookup l acc := by
        unfold symStep
        split_ifs with hc2
        · exact dictLookup_insert_ne l hd.cls hd.box hc acc
        · rfl
      rw [hstep]

/-- Claim C9: the vote-symbol dictionary holds at most one bounding box
per class label (its keys are distinct), and looking up a non-'name' label
yields exactly the box of the last-enumerated detection with that label,
so earlier same-label detections are discarded. -/
theorem extractVoteSymbols_keeps_last (boxes : List Detection) (l : String)
    (hl : l ≠ CLASS_NAME_TO_IGNORE) :
    ((extractVoteSymbols boxes).map Prod.fst).Nodup ∧
    dictLookup l (extractVoteSymbols boxes) =
      ((boxes.filter (fun d => d.cls == l)).getLast?).map (·.box) := by
  constructor
  · exact nodup_keys_foldl boxes [] (by simp)
  · rw [extractVoteSymbols, dictLookup_foldl l hl boxes []]
    cases (boxes.filter (fun d => d.cls == l)).getLast? with
    | none => rfl
    | some d => rfl

/-- Witness for C9 at a concrete input: two 'cross' detections, the later
box wins. -/
theorem extractVoteSymbols_keeps_last_witness :
    ("cross" : String) ≠ CLASS_NAME_TO_IGNORE ∧
    (((extractVoteSymbols
        [⟨"cross", ⟨0, 0, 10, 10⟩⟩, ⟨"name", ⟨0, 20, 10, 30⟩⟩,
         ⟨"cross", ⟨5, 5, 15, 15⟩⟩]).map Prod.fst).Nodup ∧
      dictLookup "cross"
          (extractVoteSymbols
            [⟨"cross", ⟨0, 0, 10, 10⟩⟩, ⟨"name", ⟨0, 20, 10, 30⟩⟩,
             ⟨"cross", ⟨5, 5, 15, 15⟩⟩]) =
        ((([⟨"cross", ⟨0, 0, 10, 10⟩⟩, ⟨"name", ⟨0, 20, 10, 30⟩⟩,
            ⟨"cross", ⟨5, 5, 15, 15⟩⟩] : List Detection).filter
              (fun d => d.cls == "cross")).getLast?).map (·.box)) :=
  ⟨by decide,
    extractVoteSymbols_keeps_last
      [⟨"cross", ⟨0, 0, 10, 10⟩⟩, ⟨"name", ⟨0, 20, 10, 30⟩⟩,
       ⟨"cross", ⟨5, 5, 15, 15⟩⟩] "cross" (by decide)⟩

/-! ## C8 and C10: OCR text vote extraction -/

theorem pyIndex_nat (l : List (List Char)) (k : Nat) (hk : k < l.length) :
    pyIndex l (k : Int) = Except.ok (l.getD k []) := by
  unfold pyIndex
  rw [if_neg (by omega : ¬ (k : Int) < 0)]
  rw [show ((k : Int)).toNat = k by omega]
  cases hg : l.get? k with
  | none => exact absurd (List.get?_eq_none.mp hg) (by omega)
  | some x =>
    rw [List.getD_eq_getElem?_getD, ← List.get?_eq_getElem?, hg]
    rfl

theorem pyIndex_neg_one (l : List (List Char)) (hl : l ≠ []) :
    pyIndex l (-1) = Except.ok (l.getLastD []) := by
  have hlen : 0 < l.length := List.length_pos.mpr hl
  unfold pyIndex
  rw [if_pos (by omega : (-1 : Int) < 0)]
  rw [if_neg (by omega : ¬ ((-1 : Int) + l.length < 0))]
  rw [show ((-1 : Int) + l.length).toNat = l.length - 1 by omega]
  cases hg : l.get? (l.length - 1) with
  | none => exact absurd (List.get?_eq_none.mp hg) (by omega)
  | some x =>
    rw [List.getLastD_eq_getLast?, List.getLast?_eq_getElem?,
      ← List.get?_eq_getElem?, hg]
    rfl

theorem pyIndex_length (l : List (List Char)) :
    pyIndex l (l.length : Int) = Except.error "list index out of range" := by
  unfold pyIndex
  rw [if_neg (by omega : ¬ (l.length : Int) < 0)]
  rw [show ((l.length : Int)).toNat = l.length by omega]
  rw [List.get?_eq_none.mpr (Nat.le_refl l.length)]

theorem mem_enumFrom {α : Type} :
    ∀ (l : List α) (k i : Nat) (x : α),
      l.get? i = some x → (k + i, x) ∈ enumFrom k l := by
  intro l
  induction l with
  | nil => intro k i x h; simp at h
  | cons hd tl ih =>
    intro k i x h
    match i with
    | 0 =>
      have hx : hd = x := by simpa using h
      subst hx
      simp [enumFrom]
    | Nat.succ i' =>
      have hmem := ih (k + 1) i' x (by simpa using h)
      have heq : k + (i' + 1) = (k + 1) + i' := by omega
      rw [enumFrom]
      exact List.mem_cons_of_mem _ (heq ▸ hmem)

theorem processLines_mem :
    ∀ (ps : List (Nat × List Char)) (ls : List (List Char)) (count : Nat)
      (recs : List Record),
      processLines ls ps count = Except.ok recs →
      ∀ (i : Nat) (line : List Char) (name : String),
        (i, line) ∈ ps → extractCandidateName line = some name →
        ∃ r ∈ recs, r.candidate_name = name ∧
          voteForLine ls i line = Except.ok r.vote := by
  intro ps
  induction ps with
  | nil => intro ls count recs _ i line name hmem; simp at hmem
  | cons hd ps' ih =>
    obtain ⟨j, l⟩ := hd
    intro ls count recs h i line name hmem hname
    rw [processLines] at h
    cases hcn : extractCandidateName l with
    | none =>
      rw [hcn] at h
      rcases List.mem_cons.mp hmem with heq | hmem'
      · obtain ⟨rfl, rfl⟩ := Prod.mk.injEq .. ▸ heq
        · exact absurd (hcn.symm.trans hname) (by simp)
      · exact ih ls count recs h i line name hmem' hname
    | some nm =>
      rw [hcn] at h
      cases hvf : voteForLine ls j l with
      | error e => rw [hvf] at h; cases h
      | ok vote =>
        rw [hvf] at h
        cases hrec : processLines ls ps' (count + 1) with
        | error e => rw [hrec] at h; cases h
        | ok recs' =>
          rw [hrec] at h
          have hrecs : recs = ⟨count + 1, nm, vote⟩ :: recs' := (Except.ok.inj h).symm
          subst hrecs
          rcases List.mem_cons.mp hmem with heq | hmem'
          · have hj : i = j := congrArg Prod.fst heq
            have hl : line = l := congrArg Prod.snd heq
            subst hj; subst hl
            have hnm : nm = name := Option.some.inj (hcn.symm.trans hname)
            subst hnm
            exact ⟨⟨count + 1, nm, vote⟩, List.mem_cons_self _ _, rfl, hvf⟩
          · obtain ⟨r, hr, hrn, hrv⟩ :=
              ih ls (count + 1) recs' hrec i line name hmem' hname
            exact ⟨r, List.mem_cons_of_mem _ hr, hrn, hrv⟩

/-- Claim C8, counterexample: the line has the text [X]1 after column 20;
the first valid vote character there is X, but extract_vote first removes
every occurrence of the literal substring [X], so the recorded vote is 1,
not X. -/
theorem processVotes_bracket_cx :
    processVotes ("PAMUDU RANASINGHE   [X]1".data) =
      Except.ok [⟨1, "PAMUDU RANASINGHE", some "1"⟩] ∧
    specFirstVoteChar
        (("PAMUDU RANASINGHE   [X]1".data).drop NAME_END_POSITION) =
      some "X" ∧
    ("1" : String) ≠ "X" :=
  ⟨rfl, rfl, by decide⟩

/-- Claim C8 (amended): for every stripped text line that contains a known
candidate name (case- and whitespace-insensitive containment), the
record's vote is the first valid vote character found after column 20 of
that line after removal of every occurrence of the literal substring [X];
if that yields none, the previous line is tried at the same offset, then
the next line — stated here for lines that are neither first nor last. -/
theorem processVotes_vote_rule (text : List Char) (i : Nat)
    (line : List Char) (name : String) (recs : List Record)
    (hok : processVotes text = Except.ok recs)
    (hline : (pyLines text).get? i = some line)
    (hname : extractCandidateName line = some name)
    (h0 : 0 < i) (hN : i + 1 < (pyLines text).length) :
    ∃ r ∈ recs, r.candidate_name = name ∧
      r.vote = ((extractVote (line.drop NAME_END_POSITION)).orElse (fun _ =>
        ((extractVote
            (((pyLines text).getD (i - 1) []).drop NAME_END_POSITION)).orElse
          (fun _ => extractVote
            (((pyLines text).getD (i + 1) []).drop NAME_END_POSITION))))) := by
  have hmem : (i, line) ∈ enumFrom 0 (pyLines text) := by
    have := mem_enumFrom (pyLines text) 0 i line hline
    rwa [Nat.zero_add] at this
  obtain ⟨r, hr, hrn, hrv⟩ :=
    processLines_mem (enumFrom 0 (pyLines text)) (pyLines text) 0 recs hok
      i line name hmem hname
  refine ⟨r, hr, hrn, ?_⟩
  have hprev : pyIndex (pyLines text) ((i : Int) - 1) =
      Except.ok ((pyLines text).getD (i - 1) []) := by
    rw [show ((i : Int) - 1) = ((i - 1 : Nat) : Int) by omega]
    exact pyIndex_nat (pyLines text) (i - 1) (by omega)
  have hnext : pyIndex (pyLines text) ((i : Int) + 1) =
      Except.ok ((pyLines text).getD (i + 1) []) := by
    rw [show ((i : Int) + 1) = ((i + 1 : Nat) : Int) by omega]
    exact pyIndex_nat (pyLines text) (i + 1) (by omega)
  rw [voteForLine] at hrv
  cases hv1 : extractVote (line.drop NAME_END_POSITION) with
  | some v =>
    simp only [hv1] at hrv
    have : some v = r.vote := Except.ok.inj hrv
    rw [← this]
    rfl
  | none =>
    simp only [hv1, hprev] at hrv
    cases hv2 : extractVote
        (((pyLines text).getD (i - 1) []).drop NAME_END_POSITION) with
    | some v =>
      simp only [hv2] at hrv
      have : some v = r.vote := Except.ok.inj hrv
      rw [← this]
      rfl
    | none =>
      simp only [hv2, hnext] at hrv
      have : extractVote
          (((pyLines text).getD (i + 1) []).drop NAME_END_POSITION) = r.vote :=
        Except.ok.inj hrv
      rw [← this]
      rfl

/-- Witness for the amended C8 at a concrete three-line text whose middle
line carries the candidate name and the vote digit after column 20. -/
theorem processVotes_vote_rule_witness :
    processVotes ("AAAA\nPAMUDU RANASINGHE   1\nBB".data) =
      Except.ok [⟨1, "PAMUDU RANASINGHE", some "1"⟩] ∧
    (pyLines ("AAAA\nPAMUDU RANASINGHE   1\nBB".data)).get? 1 =
      some ("PAMUDU RANASINGHE   1".data) ∧
    extractCandidateName ("PAMUDU RANASINGHE   1".data) =
      some "PAMUDU RANASINGHE" ∧
    (0 : Nat) < 1 ∧ 1 + 1 < (pyLines ("AAAA\nPAMUDU RANASINGHE   1\nBB".data)).length ∧
    ∃ r ∈ [(⟨1, "PAMUDU RANASINGHE", some "1"⟩ : Record)],
      r.candidate_name = "PAMUDU RANASINGHE" ∧
      r.vote = ((extractVote (("PAMUDU RANASINGHE   1".data).drop
          NAME_END_POSITION)).orElse (fun _ =>
        ((extractVote (((pyLines ("AAAA\nPAMUDU RANASINGHE   1\nBB".data)).getD
            0 []).drop NAME_END_POSITION)).orElse
          (fun _ => extractVote
            (((pyLines ("AAAA\nPAMUDU RANASINGHE   1\nBB".data)).getD
              2 []).drop NAME_END_POSITION))))) :=
  ⟨rfl, rfl, rfl, by decide, by decide,
    processVotes_vote_rule ("AAAA\nPAMUDU RANASINGHE   1\nBB".data) 1
      ("PAMUDU RANASINGHE   1".data) "PAMUDU RANASINGHE"
      [⟨1, "PAMUDU RANASINGHE", some "1"⟩] rfl rfl rfl (by decide) (by decide)⟩

/-- Claim C10: at the text edges the previous/next-line fallback is not
total: (a) for a name on the first line, the previous-line lookup uses
Python index -1 and silently reads the last line, whose vote (when
present) is recorded; (b) for a name on the last line where neither that
line nor the previous line yields a vote, the next-line lookup indexes
past the end and raises IndexError; (c) that error aborts process_votes
for the whole text. -/
theorem processVotes_edge_fallback :
    (∀ (ls : List (List Char)) (l0 : List Char) (v : String),
        ls.head? = some l0 →
        extractVote (l0.drop NAME_END_POSITION) = none →
        extractVote ((ls.getLastD []).drop NAME_END_POSITION) = some v →
        voteForLine ls 0 l0 = Except.ok (some v)) ∧
    (∀ (ls : List (List Char)) (l : List Char) (i : Nat),
        i + 1 = ls.length → ls.get? i = some l →
        extractVote (l.drop NAME_END_POSITION) = none →
        (∀ p, pyIndex ls ((i : Int) - 1) = Except.ok p →
          extractVote (p.drop NAME_END_POSITION) = none) →
        voteForLine ls i l = Except.error "list index out of range") ∧
    (∀ (ls : List (List Char)) (i : Nat) (l : List Char)
        (rest : List (Nat × List Char)) (count : Nat) (name e : String),
        extractCandidateName l = some name →
        voteForLine ls i l = Except.error e →
        processLines ls ((i, l) :: rest) count = Except.error e) := by
  refine ⟨?_, ?_, ?_⟩
  · intro ls l0 v hhead hv1 hvlast
    have hne : ls ≠ [] := by
      intro h; rw [h] at hhead; cases hhead
    rw [voteForLine]
    simp only [hv1, show ((0 : Nat) : Int) - 1 = (-1 : Int) from by decide,
      pyIndex_neg_one ls hne, hvlast]
  · intro ls l i hi hget hv1 hprev
    have hne : 0 < ls.length := by omega
    have hpi : ∃ p, pyIndex ls ((i : Int) - 1) = Except.ok p := by
      match i with
      | 0 =>
        rw [show ((0 : Nat) : Int) - 1 = (-1 : Int) by decide]
        exact ⟨ls.getLastD [], pyIndex_neg_one ls (by rw [← List.length_pos]; omega)⟩
      | Nat.succ i' =>
        rw [show ((Nat.succ i' : Nat) : Int) - 1 = ((i' : Nat) : Int) by omega]
        exact ⟨ls.getD i' [], pyIndex_nat ls i' (by omega)⟩
    obtain ⟨p, hp⟩ := hpi
    rw [voteForLine]
    simp only [hv1, hp, hprev p hp,
      show ((i : Nat) : Int) + 1 = (ls.length : Int) from by omega,
      pyIndex_length]
  · intro ls i l rest count name e hcn hvf
    rw [processLines, hcn, hvf]

/-- Witness for C10 at concrete inputs: a first line with no vote after
column 20 picks up the digit of the last line; a single-line text whose
only line has a candidate name but no vote raises the IndexError, which
aborts the whole loop. -/
theorem processVotes_edge_fallback_witness :
    voteForLine [List.replicate 21 'A', List.replicate 20 'B' ++ ['1']] 0
        (List.replicate 21 'A') = Except.ok (some "1") ∧
    voteForLine [("PAMUDU RANASINGHE".data)] 0 ("PAMUDU RANASINGHE".data) =
      Except.error "list index out of range" ∧
    processLines [("PAMUDU RANASINGHE".data)] [(0, "PAMUDU RANASINGHE".data)] 0 =
      Except.error "list index out of range" := by
  refine ⟨?_, ?_, ?_⟩
  · exact processVotes_edge_fallback.1
      [List.replicate 21 'A', List.replicate 20 'B' ++ ['1']]
      (List.replicate 21 'A') "1" rfl (by decide) (by decide)
  · refine processVotes_edge_fallback.2.1 [("PAMUDU RANASINGHE".data)]
      ("PAMUDU RANASINGHE".data) 0 rfl rfl (by decide) ?_
    intro p hp
    have hpl : ("PAMUDU RANASINGHE".data) = p := Except.ok.inj hp
    rw [← hpl]
    decide
  · exact processVotes_edge_fallback.2.2 [("PAMUDU RANASINGHE".data)] 0
      ("PAMUDU RANASINGHE".data) [] 0 "PAMUDU RANASINGHE"
      "list index out of range" rfl
      (processVotes_edge_fallback.2.1 [("PAMUDU RANASINGHE".data)]
        ("PAMUDU RANASINGHE".data) 0 rfl rfl (by decide)
        (fun p hp => by
          have hpl : ("PAMUDU RANASINGHE".data) = p := Except.ok.inj hp
          rw [← hpl]
          decide))

end VoteCounter
